import Mathlib

/-!
Verification of the sudachi_tantivy tokenizer adapter (src/lib.rs).

Texts are modelled as lists of bytes (`List Nat`, each entry `< 256` in
practice), since the Rust code works with `&str` byte offsets, UTF-8
character boundaries and byte-pattern suffix checks.  The external
morphological analyzer (sudachi's `StatefulTokenizer`) is out of scope in the
source repository; the stream functions below are parameterised by an
abstract analysis function `tok : List Nat → List Morpheme` standing for the
net effect of `SudachiTokenizer::tokenize` on one chunk (on analysis failure
the Rust code logs and leaves the cleared morpheme list empty, i.e. `tok`
returns `[]` for that chunk).

Loops of the Rust source are embedded as structurally recursive functions
with explicit fuel so that all definitions evaluate by kernel reduction;
fuel bounds are chosen so that the fuelled function agrees with the loop
(each loop iteration strictly decreases the quantity used as fuel).
-/

/-- Maximum size of text passed to the analyzer, in bytes:
`u16::MAX as usize / 4 * 3` from src/lib.rs. -/
def SUDACHI_MAX_LENGTH : Nat := 65535 / 4 * 3

/-- Modulus of Rust `usize` arithmetic (64-bit target); `usize::wrapping_add`
is addition modulo this constant. -/
def USIZE_MOD : Nat := 2 ^ 64

/-- A byte `0x80 ≤ b < 0xC0` is a UTF-8 continuation byte; character
boundaries of a valid UTF-8 string are exactly the non-continuation
positions (plus both ends). -/
def isUtf8Cont (b : Nat) : Bool := 128 ≤ b && b < 192

/-- Rust `str::is_char_boundary`: true at index 0 and at the total length,
and at any index holding a non-continuation byte. -/
def is_char_boundary (l : List Nat) (i : Nat) : Bool :=
  i == 0 ||
    (match l.get? i with
     | some b => !isUtf8Cont b
     | none => i == l.length)

/-- Scan downward from `i` for the nearest character boundary (index 0 is
always a boundary, so the scan terminates there at the latest). -/
def floorCbAux (l : List Nat) : Nat → Nat
  | 0 => 0
  | i + 1 => if is_char_boundary l (i + 1) then i + 1 else floorCbAux l i

/-- Rust `str::floor_char_boundary`: the length when the index is past the
end, otherwise the largest character boundary at or below the index. -/
def floor_char_boundary (l : List Nat) (i : Nat) : Nat :=
  if l.length ≤ i then l.length else floorCbAux l i

/-- The byte range `l[a..b]` of Rust slicing. -/
def listSlice (l : List Nat) (a b : Nat) : List Nat :=
  (l.drop a).take (b - a)

/-- Index of the rightmost newline byte (`\n` = 10), mirroring
`str::rfind("\n")`. -/
def rfindNewline : List Nat → Option Nat
  | [] => none
  | b :: rest =>
    match rfindNewline rest with
    | some i => some (i + 1)
    | none => if b = 10 then some 0 else none

/-- The suffix patterns tested by `rfind_end_of_sentence`, as UTF-8 bytes:
".\n", ".\r\n", "。\n", "。\r\n", "\n\n", "\r\n\r\n". -/
def sentenceEndPatterns : List (List Nat) :=
  [[46, 10], [46, 13, 10], [227, 128, 130, 10], [227, 128, 130, 13, 10],
   [10, 10], [13, 10, 13, 10]]

/-- Does the prefix `s` end with one of the recognized sentence-boundary
patterns?  This is the disjunction of `ends_with` checks in the source. -/
def isSentenceEnd (s : List Nat) : Bool :=
  sentenceEndPatterns.any (fun p => p.isSuffixOf s)

/-- One fuelled unfolding of the `while let Some(i) = text.rfind("\n")` loop
of `rfind_end_of_sentence`.  Each iteration shrinks `text` to `text.take i`
with `i < text.length`, so fuel `text.length` is enough to reach the exit. -/
def rfindEosAux : Nat → List Nat → Nat
  | 0, text => text.length
  | fuel + 1, text =>
    match rfindNewline text with
    | some i =>
      if isSentenceEnd (text.take (i + 1)) then i + 1
      else rfindEosAux fuel (text.take i)
    | none => text.length

/-- `rfind_end_of_sentence` from src/lib.rs. -/
def rfind_end_of_sentence (txt : List Nat) : Nat :=
  rfindEosAux txt.length txt

/-- `TextChunkIterator` state: the borrowed text, the maximum chunk byte
size, and the cursor `start`. -/
structure TextChunkIterator where
  text : List Nat
  max_chunk_size : Nat
  start : Nat
  deriving DecidableEq, Repr

/-- `TextChunkIterator::new`. -/
def TextChunkIterator.new (text : List Nat) (max_chunk_size : Nat) :
    TextChunkIterator :=
  { text := text, max_chunk_size := max_chunk_size, start := 0 }

/-- `TextChunkIterator::next` (Iterator impl): returns the yielded chunk
together with the successor state, or `none` when exhausted. -/
def TextChunkIterator.next (it : TextChunkIterator) :
    Option (List Nat × TextChunkIterator) :=
  if it.start < it.text.length then
    let limit := floor_char_boundary it.text (it.start + it.max_chunk_size)
    if it.text.length ≤ limit then
      some (it.text.drop it.start, { it with start := it.text.length })
    else
      let part := listSlice it.text it.start limit
      let e := rfind_end_of_sentence part
      some (listSlice it.text it.start (it.start + e),
            { it with start := it.start + e })
  else
    none

/-- The first `fuel` chunks yielded by repeatedly calling `next`. -/
def chunksAux : Nat → TextChunkIterator → List (List Nat)
  | 0, _ => []
  | fuel + 1, it =>
    match it.next with
    | none => []
    | some (c, it') => c :: chunksAux fuel it'

/-- A morpheme as consumed from sudachi: chunk-relative `begin()` and
`end()` byte offsets (`end` is a Lean keyword, hence the field name
`endPos`), `surface()` text, and the `part_of_speech()` tag list. -/
structure Morpheme where
  begin : Nat
  endPos : Nat
  surface : String
  part_of_speech : List String
  deriving DecidableEq, Repr

/-- Default used for the (guarded) `morphemes.get(index)` access. -/
def mdefault : Morpheme := ⟨0, 0, "", []⟩

/-- A tantivy token: `position`, byte offsets into the original text, and
the surface text (the Rust code clears and refills one reused `Token`; only
the fields written by `advance` are modelled). -/
structure Token where
  position : Nat
  offset_from : Nat
  offset_to : Nat
  text : String
  deriving DecidableEq, Repr

/-- `SudachiTokenStream` cursor state.  The Rust struct stores the current
`Token` inside the borrowed `SudachiTokenizer`; here the emitted token is
returned by `step` instead, which is the only observable use. -/
structure SudachiTokenStream where
  chunks : TextChunkIterator
  chunk_size : Nat
  morphemes : List Morpheme
  index : Nat
  offset : Nat
  token_position : Nat
  deriving DecidableEq, Repr

/-- `SudachiTokenStream::new` generalised over the chunk size limit; the
source always instantiates the limit with `SUDACHI_MAX_LENGTH`. -/
def mkStream (text : List Nat) (max_chunk_size : Nat) : SudachiTokenStream :=
  { chunks := TextChunkIterator.new text max_chunk_size
    chunk_size := 0
    morphemes := []
    index := 0
    offset := 0
    token_position := 0 }

/-- `SudachiTokenStream::new` as in the source, with the fixed limit. -/
def SudachiTokenStream.new (text : List Nat) : SudachiTokenStream :=
  mkStream text SUDACHI_MAX_LENGTH

/-- The state update of `has_next`'s `Some(chunk)` arm: reset `index`,
advance `offset` by the previous chunk's size, record the new chunk's size,
and replace the morpheme list with the analysis of the new chunk. -/
def fetchState (tok : List Nat → List Morpheme) (s : SudachiTokenStream)
    (chunk : List Nat) (rest : TextChunkIterator) : SudachiTokenStream :=
  { s with
    chunks := rest
    index := 0
    offset := s.offset + s.chunk_size
    chunk_size := chunk.length
    morphemes := tok chunk }

/-- `SudachiTokenStream::has_next`, parameterised by the abstract analyzer
`tok`.  Returns the Rust boolean together with the updated state. -/
def has_next (tok : List Nat → List Morpheme) (s : SudachiTokenStream) :
    Bool × SudachiTokenStream :=
  if s.index < s.morphemes.length then
    (true, s)
  else
    match s.chunks.next with
    | some (chunk, rest) =>
      (!(tok chunk).isEmpty, fetchState tok s chunk rest)
    | none => (false, s)

/-- Result of one iteration of the `while self.has_next()` loop in
`advance`: a token was emitted, the loop exited with `false`, or a
whitespace morpheme was skipped (`continue`). -/
inductive StepResult where
  | emit (t : Token)
  | exhausted
  | skip
  deriving DecidableEq, Repr

/-- One iteration of the `advance` loop body: call `has_next`; on `true`
take the morpheme at `index`, increment `index`, skip it when its first
part-of-speech tag is the whitespace tag "空白", otherwise bump the wrapping
position counter and emit the token built from the morpheme. -/
def step (tok : List Nat → List Morpheme) (s : SudachiTokenStream) :
    StepResult × SudachiTokenStream :=
  match has_next tok s with
  | (false, s₁) => (.exhausted, s₁)
  | (true, s₁) =>
    let m := s₁.morphemes.getD s₁.index mdefault
    let s₂ : SudachiTokenStream := { s₁ with index := s₁.index + 1 }
    if m.part_of_speech.head? = some "空白" then
      (.skip, s₂)
    else
      let p := (s₂.token_position + 1) % USIZE_MOD
      (.emit { position := p
               offset_from := s₂.offset + m.begin
               offset_to := s₂.offset + m.endPos + 1
               text := m.surface },
       { s₂ with token_position := p })

/-- `SudachiTokenStream::advance`, with fuel for the skip loop: `none` means
the fuel ran out, otherwise the boolean the Rust function returns together
with the final state. -/
def advanceAux (tok : List Nat → List Morpheme) :
    Nat → SudachiTokenStream → Option (Bool × SudachiTokenStream)
  | 0, _ => none
  | fuel + 1, s =>
    match step tok s with
    | (.exhausted, s') => some (false, s')
    | (.emit _, s') => some (true, s')
    | (.skip, s') => advanceAux tok fuel s'

/-- The token sequence a consumer observes by calling `advance` until it
returns `false`, collecting the token after every `true` (with fuel
bounding the total number of loop iterations). -/
def runAux (tok : List Nat → List Morpheme) :
    Nat → SudachiTokenStream → List Token
  | 0, _ => []
  | fuel + 1, s =>
    match step tok s with
    | (.exhausted, _) => []
    | (.emit t, s') => t :: runAux tok fuel s'
    | (.skip, s') => runAux tok fuel s'

/-- Does `txt` contain an occurrence of a recognized sentence-boundary
pattern?  Every pattern ends in a newline byte, so an occurrence ending at
byte position `k` (exclusive) is the same as `txt.take k` ending with the
pattern. -/
def containsBoundaryPattern (txt : List Nat) : Bool :=
  (List.range (txt.length + 1)).any (fun k => isSentenceEnd (txt.take k))

/-- A chunk-iterator state from which `next` makes no progress: the
candidate fragment begins with a newline and contains no boundary pattern,
so `rfind_end_of_sentence` returns 0. -/
def itStuck : TextChunkIterator := ⟨[10, 97, 97, 97], 2, 0⟩

/-- Analyzer behaviour for the C1 counterexample: the first chunk "a.\n"
fails analysis (empty morpheme list, as after a logged sudachi error), the
second chunk "b" analyses to one ordinary morpheme. -/
def tokC1 : List Nat → List Morpheme :=
  fun c => if c = [98] then [⟨0, 0, "b", []⟩] else []

/-- The downward boundary scan never goes above its starting index. -/
theorem floorCbAux_le (l : List Nat) : ∀ i, floorCbAux l i ≤ i := by
  intro i
  induction i with
  | zero => simp [floorCbAux]
  | succ n ih =>
    simp only [floorCbAux]
    split
    · exact Nat.le_refl _
    · exact Nat.le_trans ih (Nat.le_succ n)

/-- `floor_char_boundary` never exceeds the requested index. -/
theorem floor_char_boundary_le (l : List Nat) (i : Nat) :
    floor_char_boundary l i ≤ i := by
  unfold floor_char_boundary
  split
  · assumption
  · exact floorCbAux_le l i

/-- A newline found by `rfindNewline` lies inside the list. -/
theorem rfindNewline_lt {l : List Nat} {i : Nat}
    (h : rfindNewline l = some i) : i < l.length := by
  induction l generalizing i with
  | nil => simp [rfindNewline] at h
  | cons b rest ih =>
    cases hr : rfindNewline rest with
    | some j =>
      simp only [rfindNewline, hr, Option.some.injEq] at h
      have := ih hr
      simp only [List.length_cons]
      omega
    | none =>
      simp only [rfindNewline, hr] at h
      split at h
      · simp only [Option.some.injEq] at h
        simp only [List.length_cons]
        omega
      · cases h

/-- The sentence-boundary scan returns at most the fragment's length. -/
theorem rfindEosAux_le : ∀ (fuel : Nat) (text : List Nat),
    rfindEosAux fuel text ≤ text.length := by
  intro fuel
  induction fuel with
  | zero => intro text; simp [rfindEosAux]
  | succ n ih =>
    intro text
    cases hr : rfindNewline text with
    | some i =>
      have hi : i < text.length := rfindNewline_lt hr
      simp only [rfindEosAux, hr]
      split
      · omega
      · have := ih (text.take i)
        have hlen : (text.take i).length ≤ i := by
          simp [List.length_take]
        omega
    | none => simp only [rfindEosAux, hr]; exact Nat.le_refl _

/-- `rfind_end_of_sentence` returns at most the fragment's length. -/
theorem rfind_end_of_sentence_le (txt : List Nat) :
    rfind_end_of_sentence txt ≤ txt.length :=
  rfindEosAux_le txt.length txt

/-- C1: chunk analysis failure is NOT chunk-local in the code: `has_next`
returns `!morphemes.is_empty()` after fetching a chunk, so a chunk whose
analysis produced no morphemes makes the current `advance` call return
`false` even though chunks remain.  With the two-chunk text "a.\nb"
(chunk size limit scaled down to 3; the stream itself uses the same
machinery with `SUDACHI_MAX_LENGTH`) and an analyzer failing on the first
chunk, the very first `advance` reports exhaustion, the consumer-visible
token sequence is empty, and only a further `advance` call after the
`false` — which a tantivy consumer never makes — would surface the second
chunk's token. -/
theorem c1_failed_chunk_ends_stream :
    chunksAux 3 (TextChunkIterator.new [97, 46, 10, 98] 3) =
      [[97, 46, 10], [98]] ∧
    tokC1 [97, 46, 10] = [] ∧
    tokC1 [98] = [⟨0, 0, "b", []⟩] ∧
    (advanceAux tokC1 4 (mkStream [97, 46, 10, 98] 3)).map Prod.fst =
      some false ∧
    runAux tokC1 8 (mkStream [97, 46, 10, 98] 3) = [] ∧
    ((advanceAux tokC1 4 (mkStream [97, 46, 10, 98] 3)).bind
        (fun r => advanceAux tokC1 4 r.2)).map Prod.fst = some true := by
  decide

theorem chunksAux_itStuck_succ (n : Nat) :
    chunksAux (n + 1) itStuck = [] :: chunksAux n itStuck := by
  simp only [chunksAux, (by decide : itStuck.next = some ([], itStuck))]

/-- C2: chunk concatenation does not reproduce the input in general: from
`itStuck` (text "\naaa", max size 2) the iterator yields the empty chunk
with an unchanged cursor, so the concatenation of the chunks yielded after
any number of steps stays empty and never equals the text. -/
theorem c2_chunks_do_not_cover_input :
    (∀ fuel, (chunksAux fuel itStuck).flatten = []) ∧
    (∀ fuel, (chunksAux fuel itStuck).flatten ≠ itStuck.text) := by
  have hjoin : ∀ fuel, (chunksAux fuel itStuck).flatten = [] := by
    intro fuel
    induction fuel with
    | zero => rfl
    | succ n ih =>
      rw [chunksAux_itStuck_succ, List.flatten_cons, ih]
      rfl
  refine ⟨hjoin, fun fuel => ?_⟩
  rw [hjoin]
  decide

/-- C5: the iterator is neither finite nor nonempty-chunk-producing on all
inputs: from `itStuck` every call to `next` yields the empty chunk and
leaves the state unchanged, so iteration never terminates and every yielded
chunk is empty. -/
theorem c5_empty_chunk_forever :
    itStuck.next = some ([], itStuck) ∧
    ∀ fuel, chunksAux fuel itStuck = List.replicate fuel [] := by
  refine ⟨by decide, ?_⟩
  intro fuel
  induction fuel with
  | zero => rfl
  | succ n ih =>
    rw [chunksAux_itStuck_succ, List.replicate_succ, ih]

/-- C6: on a fragment with no recognized boundary pattern the function does
NOT return the full byte length: for "abc\ndef" (no pattern occurs, length
7) it returns 3, the length of the prefix before the first newline, because
the `while` loop shrinks the text below each inspected newline and finally
returns the length of what remains. -/
theorem c6_no_boundary_returns_first_line :
    containsBoundaryPattern [97, 98, 99, 10, 100, 101, 102] = false ∧
    rfind_end_of_sentence [97, 98, 99, 10, 100, 101, 102] = 3 ∧
    ([97, 98, 99, 10, 100, 101, 102] : List Nat).length = 7 := by
  decide

/-- C8: every chunk yielded by `TextChunkIterator::next` has byte length at
most `max_chunk_size`; the constant equals ⌊65535/4⌋·3 = 49149; and the
token stream instantiates the iterator with exactly that constant, so every
chunk handed to the analyzer respects the ceiling. -/
theorem c8_chunk_size_bound :
    (∀ (it : TextChunkIterator) (c : List Nat) (it' : TextChunkIterator),
        it.next = some (c, it') → c.length ≤ it.max_chunk_size) ∧
    SUDACHI_MAX_LENGTH = 49149 ∧
    (∀ text, (SudachiTokenStream.new text).chunks.max_chunk_size =
        SUDACHI_MAX_LENGTH) := by
  refine ⟨?_, rfl, fun text => rfl⟩
  intro it c it' h
  have hfl := floor_char_boundary_le it.text (it.start + it.max_chunk_size)
  simp only [TextChunkIterator.next] at h
  split_ifs at h with h1 h2
  · injection h with h'
    injection h' with hc hit
    subst hc
    have : (it.text.drop it.start).length = it.text.length - it.start := by
      simp
    omega
  · injection h with h'
    injection h' with hc hit
    subst hc
    have hpart := rfind_end_of_sentence_le
      (listSlice it.text it.start
        (floor_char_boundary it.text (it.start + it.max_chunk_size)))
    simp only [listSlice, List.length_take, List.length_drop] at hpart ⊢
    omega

/-- Witness: a concrete invocation of the chunk size bound. -/
theorem c8_chunk_size_bound_witness :
    (⟨[97], 5, 0⟩ : TextChunkIterator).next = some ([97], ⟨[97], 5, 1⟩) ∧
    ([97] : List Nat).length ≤
      (⟨[97], 5, 0⟩ : TextChunkIterator).max_chunk_size :=
  ⟨by decide, c8_chunk_size_bound.1 ⟨[97], 5, 0⟩ [97] ⟨[97], 5, 1⟩ (by decide)⟩

/-- The newline found by `rfindNewline` really holds a newline byte. -/
theorem rfindNewline_get {l : List Nat} {i : Nat}
    (h : rfindNewline l = some i) : l[i]? = some 10 := by
  induction l generalizing i with
  | nil => simp [rfindNewline] at h
  | cons b rest ih =>
    cases hr : rfindNewline rest with
    | some j =>
      simp only [rfindNewline, hr, Option.some.injEq] at h
      subst h
      rw [List.getElem?_cons_succ]
      exact ih hr
    | none =>
      simp only [rfindNewline, hr] at h
      split at h
      · rename_i hb
        simp only [Option.some.injEq] at h
        subst h
        rw [List.getElem?_cons_zero, hb]
      · cases h

/-- If `rfindNewline` finds nothing, the list holds no newline byte. -/
theorem rfindNewline_none {l : List Nat} (h : rfindNewline l = none) :
    ∀ j : Nat, l[j]? ≠ some 10 := by
  induction l with
  | nil => intro j; simp
  | cons b rest ih =>
    intro j
    cases hr : rfindNewline rest with
    | some k =>
      simp only [rfindNewline, hr] at h
      cases h
    | none =>
      simp only [rfindNewline, hr] at h
      split at h
      · cases h
      · rename_i hb
        cases j with
        | zero =>
          rw [List.getElem?_cons_zero]
          simp [hb]
        | succ j' =>
          rw [List.getElem?_cons_succ]
          exact ih hr j'

/-- `rfindNewline` finds the rightmost newline byte. -/
theorem rfindNewline_rightmost {l : List Nat} {i : Nat}
    (h : rfindNewline l = some i) : ∀ j : Nat, l[j]? = some 10 → j ≤ i := by
  induction l generalizing i with
  | nil => intro j hj; simp at hj
  | cons b rest ih =>
    intro j hj
    cases hr : rfindNewline rest with
    | some k =>
      simp only [rfindNewline, hr, Option.some.injEq] at h
      subst h
      cases j with
      | zero => simp
      | succ j' =>
        rw [List.getElem?_cons_succ] at hj
        have := ih hr j' hj
        omega
    | none =>
      simp only [rfindNewline, hr] at h
      split at h
      · simp only [Option.some.injEq] at h
        subst h
        cases j with
        | zero => exact Nat.le_refl 0
        | succ j' =>
          rw [List.getElem?_cons_succ] at hj
          exact absurd hj (rfindNewline_none hr j')
      · cases h

/-- A byte position of `txt` at which the loop of `rfind_end_of_sentence`
would return: the byte is a newline and the prefix through it ends with a
recognized sentence-boundary pattern. -/
def boundaryAt (txt : List Nat) (i : Nat) : Bool :=
  (txt[i]? == some 10) && isSentenceEnd (txt.take (i + 1))

/-- A boundary position lies inside the fragment. -/
theorem boundaryAt_lt_length {txt : List Nat} {i : Nat}
    (h : boundaryAt txt i = true) : i < txt.length := by
  unfold boundaryAt at h
  simp only [Bool.and_eq_true, beq_iff_eq] at h
  by_contra hge
  rw [List.getElem?_eq_none (by omega)] at h
  exact Option.noConfusion h.1

/-- Truncation above a boundary position does not affect it. -/
theorem boundaryAt_take {txt : List Nat} {k j : Nat} (hj : j < k) :
    boundaryAt (txt.take k) j = boundaryAt txt j := by
  unfold boundaryAt
  rw [List.getElem?_take, if_pos hj, List.take_take]
  have hmin : (j + 1) ⊓ k = j + 1 := by omega
  rw [hmin]

/-- The fuelled boundary scan returns one past the rightmost boundary
position whenever one exists (fuel at least the fragment length). -/
theorem rfindEosAux_boundary :
    ∀ (fuel : Nat) (txt : List Nat) (i : Nat), txt.length ≤ fuel →
      boundaryAt txt i = true →
      (∀ j, boundaryAt txt j = true → j ≤ i) →
      rfindEosAux fuel txt = i + 1 := by
  intro fuel
  induction fuel with
  | zero =>
    intro txt i hlen hb _
    have := boundaryAt_lt_length hb
    omega
  | succ n ih =>
    intro txt i hlen hb hmax
    have hbparts : txt[i]? = some 10 ∧ isSentenceEnd (txt.take (i + 1)) = true := by
      have h := hb
      unfold boundaryAt at h
      simpa using h
    cases hr : rfindNewline txt with
    | none => exact absurd hbparts.1 (rfindNewline_none hr i)
    | some k =>
      have hk10 : txt[k]? = some 10 := rfindNewline_get hr
      have hik : i ≤ k := rfindNewline_rightmost hr i hbparts.1
      by_cases hse : isSentenceEnd (txt.take (k + 1)) = true
      · have hbk : boundaryAt txt k = true := by
          unfold boundaryAt
          simp [hk10, hse]
        have hki : k ≤ i := hmax k hbk
        have hik' : i = k := Nat.le_antisymm hik hki
        subst hik'
        simp only [rfindEosAux, hr, if_pos hse]
      · have hikx : i < k := by
          rcases Nat.lt_or_ge i k with hx | hx
          · exact hx
          · exfalso
            have : i = k := by omega
            subst this
            exact hse hbparts.2
        have hklen : k < txt.length := rfindNewline_lt hr
        have h1 : (txt.take k).length ≤ n := by
          simp only [List.length_take]
          omega
        have h2 : boundaryAt (txt.take k) i = true := by
          rw [boundaryAt_take hikx]
          exact hb
        have h3 : ∀ j, boundaryAt (txt.take k) j = true → j ≤ i := by
          intro j hj
          have hjk : j < k := by
            have := boundaryAt_lt_length hj
            simp only [List.length_take] at this
            omega
          exact hmax j (by rw [← boundaryAt_take hjk]; exact hj)
        simp only [rfindEosAux, hr, if_neg hse]
        exact ih (txt.take k) i h1 h2 h3

/-- The example text "This is a test.\nThis is a second line.\nThis is a
third line." as UTF-8 bytes. -/
def exampleText : List Nat :=
  [84, 104, 105, 115, 32, 105, 115, 32, 97, 32, 116, 101, 115, 116, 46, 10,
   84, 104, 105, 115, 32, 105, 115, 32, 97, 32, 115, 101, 99, 111, 110, 100,
   32, 108, 105, 110, 101, 46, 10, 84, 104, 105, 115, 32, 105, 115, 32, 97,
   32, 116, 104, 105, 114, 100, 32, 108, 105, 110, 101, 46]

/-- "This is a test.\n" as UTF-8 bytes. -/
def exampleChunk1 : List Nat :=
  [84, 104, 105, 115, 32, 105, 115, 32, 97, 32, 116, 101, 115, 116, 46, 10]

/-- "This is a second line.\n" as UTF-8 bytes. -/
def exampleChunk2 : List Nat :=
  [84, 104, 105, 115, 32, 105, 115, 32, 97, 32, 115, 101, 99, 111, 110, 100,
   32, 108, 105, 110, 101, 46, 10]

/-- "This is a third line." as UTF-8 bytes. -/
def exampleChunk3 : List Nat :=
  [84, 104, 105, 115, 32, 105, 115, 32, 97, 32, 116, 104, 105, 114, 100, 32,
   108, 105, 110, 101, 46]

/-- C7: whenever the fragment has a boundary position (newline preceded by
a recognized pattern), `rfind_end_of_sentence` returns the byte offset just
past the newline of the rightmost one; and on the documented example text
with max chunk size 25 the iterator yields exactly the three expected
chunks in order (the fourth call returns `none`, so these are all). -/
theorem c7_rightmost_boundary :
    (∀ (txt : List Nat) (i : Nat), boundaryAt txt i = true →
        (∀ j, boundaryAt txt j = true → j ≤ i) →
        rfind_end_of_sentence txt = i + 1) ∧
    chunksAux 4 (TextChunkIterator.new exampleText 25) =
      [exampleChunk1, exampleChunk2, exampleChunk3] :=
  ⟨fun txt i hb hmax =>
      rfindEosAux_boundary txt.length txt i (Nat.le_refl _) hb hmax,
   by decide⟩

/-- Witness: the boundary characterization applied to the fragment ".\n". -/
theorem c7_rightmost_boundary_witness :
    boundaryAt [46, 10] 1 = true ∧ rfind_end_of_sentence [46, 10] = 2 :=
  ⟨by decide,
   c7_rightmost_boundary.1 [46, 10] 1 (by decide)
     (fun j hj => Nat.lt_succ_iff.mp (boundaryAt_lt_length hj))⟩

/-- At a state with morphemes remaining, `has_next` returns `true` without
touching the state. -/
theorem has_next_ready {tok : List Nat → List Morpheme}
    {s : SudachiTokenStream} (h : s.index < s.morphemes.length) :
    has_next tok s = (true, s) := by
  unfold has_next
  rw [if_pos h]

/-- When `has_next` answers `true`, the updated state has a morpheme left
at its index. -/
theorem has_next_true_ready {tok : List Nat → List Morpheme}
    {s s₁ : SudachiTokenStream} (h : has_next tok s = (true, s₁)) :
    s₁.index < s₁.morphemes.length := by
  unfold has_next at h
  split at h
  · cases h
    assumption
  · split at h
    · rename_i chunk rest heq
      simp only [Prod.mk.injEq] at h
      obtain ⟨hb, hs⟩ := h
      subst hs
      simp only [fetchState]
      have : tok chunk ≠ [] := by
        intro hnil
        rw [hnil] at hb
        simp at hb
      cases htok : tok chunk with
      | nil => exact absurd htok this
      | cons a as => simp [htok]
    · cases h

/-- `has_next` never changes the position counter. -/
theorem has_next_token_position (tok : List Nat → List Morpheme)
    (s : SudachiTokenStream) :
    (has_next tok s).2.token_position = s.token_position := by
  unfold has_next
  split
  · rfl
  · split
    · rfl
    · rfl

/-- `step` on a `false` answer from `has_next` exits the loop. -/
theorem step_of_has_next_false {tok : List Nat → List Morpheme}
    {s s₁ : SudachiTokenStream} (h : has_next tok s = (false, s₁)) :
    step tok s = (.exhausted, s₁) := by
  unfold step
  rw [h]

/-- `step` on a `true` answer whose current morpheme is whitespace-tagged
skips it, only incrementing the morpheme index. -/
theorem step_of_has_next_true_ws {tok : List Nat → List Morpheme}
    {s s₁ : SudachiTokenStream} (h : has_next tok s = (true, s₁))
    (hw : (s₁.morphemes.getD s₁.index mdefault).part_of_speech.head? =
      some "空白") :
    step tok s = (.skip, { s₁ with index := s₁.index + 1 }) := by
  unfold step
  rw [h]
  simp only [hw, if_pos]

/-- `step` on a `true` answer whose current morpheme is not
whitespace-tagged emits the corresponding token and bumps the wrapping
position counter. -/
theorem step_of_has_next_true_emit {tok : List Nat → List Morpheme}
    {s s₁ : SudachiTokenStream} (h : has_next tok s = (true, s₁))
    (hw : ¬ (s₁.morphemes.getD s₁.index mdefault).part_of_speech.head? =
      some "空白") :
    step tok s =
      (.emit { position := (s₁.token_position + 1) % USIZE_MOD
               offset_from :=
                 s₁.offset + (s₁.morphemes.getD s₁.index mdefault).begin
               offset_to :=
                 s₁.offset + (s₁.morphemes.getD s₁.index mdefault).endPos + 1
               text := (s₁.morphemes.getD s₁.index mdefault).surface },
       { s₁ with
         index := s₁.index + 1
         token_position := (s₁.token_position + 1) % USIZE_MOD }) := by
  unfold step
  rw [h]
  simp only [hw, if_neg, if_false]

/-- C9: a morpheme whose first part-of-speech tag is the whitespace tag
"空白" is skipped by the `advance` loop: no token is emitted for it, the
position counter is untouched, and all offset bookkeeping (`offset`,
`chunk_size`, the chunk cursor) is unchanged — only the morpheme index
moves past it. -/
theorem c9_whitespace_suppressed (tok : List Nat → List Morpheme)
    (s : SudachiTokenStream) (h1 : s.index < s.morphemes.length)
    (h2 : (s.morphemes.getD s.index mdefault).part_of_speech.head? =
      some "空白") :
    step tok s = (.skip, { s with index := s.index + 1 }) :=
  step_of_has_next_true_ws (has_next_ready h1) h2

/-- Concrete stream state holding one whitespace-tagged morpheme. -/
def sWs : SudachiTokenStream :=
  { chunks := ⟨[], 0, 0⟩
    chunk_size := 1
    morphemes := [⟨0, 0, " ", ["空白"]⟩]
    index := 0
    offset := 0
    token_position := 0 }

/-- Analyzer that produces no morphemes at all. -/
def tokEmpty : List Nat → List Morpheme := fun _ => []

/-- Witness: the whitespace morpheme of `sWs` is skipped. -/
theorem c9_whitespace_suppressed_witness :
    sWs.index < sWs.morphemes.length ∧
    step tokEmpty sWs = (.skip, { sWs with index := 1 }) :=
  ⟨by decide, c9_whitespace_suppressed tokEmpty sWs (by decide) (by decide)⟩

/-- C10: a morpheme with an empty part-of-speech tag list is NOT filtered:
the whitespace test only fires when a first tag exists and equals "空白",
so the morpheme is emitted as an ordinary token and consumes a position
slot (the counter is incremented). -/
theorem c10_empty_pos_list_emitted (tok : List Nat → List Morpheme)
    (s : SudachiTokenStream) (h1 : s.index < s.morphemes.length)
    (h2 : (s.morphemes.getD s.index mdefault).part_of_speech = []) :
    step tok s =
      (.emit { position := (s.token_position + 1) % USIZE_MOD
               offset_from :=
                 s.offset + (s.morphemes.getD s.index mdefault).begin
               offset_to :=
                 s.offset + (s.morphemes.getD s.index mdefault).endPos + 1
               text := (s.morphemes.getD s.index mdefault).surface },
       { s with
         index := s.index + 1
         token_position := (s.token_position + 1) % USIZE_MOD }) :=
  step_of_has_next_true_emit (has_next_ready h1)
    (by rw [h2]; simp)

/-- Concrete stream state holding one morpheme with no tags. -/
def sNoTags : SudachiTokenStream :=
  { chunks := ⟨[], 0, 0⟩
    chunk_size := 1
    morphemes := [⟨0, 0, "x", []⟩]
    index := 0
    offset := 0
    token_position := 0 }

/-- Witness: the tagless morpheme of `sNoTags` is emitted with position 1. -/
theorem c10_empty_pos_list_emitted_witness :
    sNoTags.index < sNoTags.morphemes.length ∧
    step tokEmpty sNoTags =
      (.emit { position := 1, offset_from := 0, offset_to := 1, text := "x" },
       { sNoTags with index := 1, token_position := 1 }) :=
  ⟨by decide, c10_empty_pos_list_emitted tokEmpty sNoTags (by decide) (by decide)⟩

/-- From any state, the positions of the emitted tokens continue the
state's counter: the k-th emitted token has position
`(token_position + k + 1) % USIZE_MOD`. -/
theorem runAux_positions (tok : List Nat → List Morpheme) :
    ∀ (fuel : Nat) (s : SudachiTokenStream),
      (runAux tok fuel s).map Token.position =
        (List.range (runAux tok fuel s).length).map
          (fun k => (s.token_position + k + 1) % USIZE_MOD) := by
  intro fuel
  induction fuel with
  | zero => intro s; rfl
  | succ n ih =>
    intro s
    rcases hh : has_next tok s with ⟨b, s₁⟩
    have hbpos : s₁.token_position = s.token_position := by
      have h := has_next_token_position tok s
      rw [hh] at h
      exact h
    cases b with
    | false =>
      simp [runAux, step_of_has_next_false hh]
    | true =>
      by_cases hw : (s₁.morphemes.getD s₁.index mdefault).part_of_speech.head? =
          some "空白"
      · simp only [runAux, step_of_has_next_true_ws hh hw]
        rw [ih { s₁ with index := s₁.index + 1 }]
        simp [hbpos]
      · simp only [runAux, step_of_has_next_true_emit hh hw, List.map_cons,
          List.length_cons]
        rw [ih { s₁ with
                 index := s₁.index + 1
                 token_position := (s₁.token_position + 1) % USIZE_MOD }]
        rw [List.range_succ_eq_map, List.map_cons, List.map_map]
        congr 1
        · rw [hbpos]
        · apply List.map_congr_left
          intro k _
          simp only [Function.comp_apply, hbpos]
          have h1 : (s.token_position + 1) % USIZE_MOD + k + 1 =
              (s.token_position + 1) % USIZE_MOD + (k + 1) := by omega
          rw [h1, Nat.mod_add_mod]
          congr 1
          omega

/-- C4: from a fresh stream the emitted positions are exactly
1, 2, 3, … taken modulo `USIZE_MOD` (the `usize::wrapping_add(1)`
semantics): the k-th emitted token (0-based) has position
`(k + 1) % USIZE_MOD`, for any analyzer behaviour, any text, and any
number of pulls — so the first token has position 1 and positions are
strictly increasing until a wraparound could occur at `usize::MAX`. -/
theorem c4_positions_sequential :
    ∀ (text : List Nat) (tok : List Nat → List Morpheme) (fuel : Nat),
      ((runAux tok fuel (SudachiTokenStream.new text)).map Token.position =
        (List.range
            (runAux tok fuel (SudachiTokenStream.new text)).length).map
          (fun k => (k + 1) % USIZE_MOD)) ∧
      (((runAux tok fuel (SudachiTokenStream.new text)).map
          Token.position).head?.getD 1 = 1) := by
  intro text tok fuel
  have h := runAux_positions tok fuel (SudachiTokenStream.new text)
  have h0 : (SudachiTokenStream.new text).token_position = 0 := rfl
  rw [h0] at h
  simp only [Nat.zero_add] at h
  refine ⟨h, ?_⟩
  rw [h]
  cases hn : (runAux tok fuel (SudachiTokenStream.new text)).length with
  | zero => rfl
  | succ m =>
    rw [List.range_succ_eq_map, List.map_cons, List.head?_cons]
    norm_num [USIZE_MOD]

/-- Pointwise comparison of morphemes: non-decreasing begin and end. -/
def MorphemeLE (a b : Morpheme) : Prop :=
  a.begin ≤ b.begin ∧ a.endPos ≤ b.endPos

/-- Sanity contract of the external analyzer (out of scope in the source
repository): per chunk, morphemes are listed with non-decreasing spans and
every span lies within the chunk. -/
def AnalyzerWF (tok : List Nat → List Morpheme) : Prop :=
  ∀ c, List.Pairwise MorphemeLE (tok c) ∧
    ∀ m ∈ tok c, m.begin ≤ c.length ∧ m.endPos ≤ c.length

/-- The unconsumed morphemes of a state are ordered and within the recorded
chunk size. -/
def StreamWF (s : SudachiTokenStream) : Prop :=
  List.Pairwise MorphemeLE (s.morphemes.drop s.index) ∧
  ∀ m ∈ s.morphemes.drop s.index,
    m.begin ≤ s.chunk_size ∧ m.endPos ≤ s.chunk_size

/-- Comparison of emitted tokens by their byte offsets. -/
def tokenLE (a b : Token) : Prop :=
  a.offset_from ≤ b.offset_from ∧ a.offset_to ≤ b.offset_to

/-- Lower bounds `bf`/`bt` on the offsets of every token the state can
still emit: they bound the offsets derived from each remaining morpheme of
the current chunk, and they are below the base offset any future chunk will
start from. -/
def TokenBounds (bf bt : Nat) (s : SudachiTokenStream) : Prop :=
  (∀ m ∈ s.morphemes.drop s.index,
      bf ≤ s.offset + m.begin ∧ bt ≤ s.offset + m.endPos + 1) ∧
  bf ≤ s.offset + s.chunk_size ∧ bt ≤ s.offset + s.chunk_size + 1

/-- Dropping one more element preserves order and span bounds. -/
theorem StreamWF_drop_succ {s : SudachiTokenStream} (h : StreamWF s) :
    List.Pairwise MorphemeLE (s.morphemes.drop (s.index + 1)) ∧
    ∀ m ∈ s.morphemes.drop (s.index + 1),
      m.begin ≤ s.chunk_size ∧ m.endPos ≤ s.chunk_size := by
  have hsub : (s.morphemes.drop (s.index + 1)).Sublist
      (s.morphemes.drop s.index) := by
    rw [← List.tail_drop]
    exact List.tail_sublist _
  exact ⟨List.Pairwise.sublist hsub h.1, fun m hm => h.2 m (hsub.subset hm)⟩

/-- `has_next` preserves `StreamWF` when the analyzer is well formed. -/
theorem has_next_true_StreamWF {tok : List Nat → List Morpheme}
    {s s₁ : SudachiTokenStream} (hA : AnalyzerWF tok)
    (h : has_next tok s = (true, s₁)) (hwf : StreamWF s) : StreamWF s₁ := by
  unfold has_next at h
  split at h
  · cases h
    exact hwf
  · split at h
    · rename_i chunk rest heq
      simp only [Prod.mk.injEq] at h
      obtain ⟨-, hs⟩ := h
      subst hs
      constructor
      · simpa [fetchState] using (hA chunk).1
      · intro m hm
        simp only [fetchState, List.drop_zero] at hm ⊢
        exact (hA chunk).2 m hm
    · cases h

/-- `has_next` preserves offset lower bounds. -/
theorem has_next_true_bounds {tok : List Nat → List Morpheme}
    {s s₁ : SudachiTokenStream} {bf bt : Nat}
    (h : has_next tok s = (true, s₁)) (hb : TokenBounds bf bt s) :
    TokenBounds bf bt s₁ := by
  unfold has_next at h
  split at h
  · cases h
    exact hb
  · split at h
    · rename_i chunk rest heq
      simp only [Prod.mk.injEq] at h
      obtain ⟨-, hs⟩ := h
      subst hs
      obtain ⟨-, hb2, hb3⟩ := hb
      refine ⟨?_, ?_, ?_⟩
      · intro m hm
        simp only [fetchState]
        constructor
        · omega
        · omega
      · simp only [fetchState]
        omega
      · simp only [fetchState]
        omega
    · cases h

/-- From any well-formed state the emitted token sequence is monotone in
both byte offsets, and all emitted offsets respect given lower bounds. -/
theorem runAux_mono (tok : List Nat → List Morpheme) (hA : AnalyzerWF tok) :
    ∀ (fuel : Nat) (s : SudachiTokenStream) (bf bt : Nat),
      StreamWF s → TokenBounds bf bt s →
      List.Chain' tokenLE (runAux tok fuel s) ∧
      ∀ t ∈ runAux tok fuel s, bf ≤ t.offset_from ∧ bt ≤ t.offset_to := by
  intro fuel
  induction fuel with
  | zero =>
    intro s bf bt _ _
    exact ⟨List.chain'_nil, by simp [runAux]⟩
  | succ n ih =>
    intro s bf bt hwf hb
    rcases hh : has_next tok s with ⟨b, s₁⟩
    cases b with
    | false =>
      refine ⟨?_, ?_⟩ <;> simp [runAux, step_of_has_next_false hh]
    | true =>
      have hwf₁ : StreamWF s₁ := has_next_true_StreamWF hA hh hwf
      have hb₁ : TokenBounds bf bt s₁ := has_next_true_bounds hh hb
      have hready : s₁.index < s₁.morphemes.length := has_next_true_ready hh
      have hdrop : s₁.morphemes.drop s₁.index =
          s₁.morphemes.getD s₁.index mdefault ::
            s₁.morphemes.drop (s₁.index + 1) := by
        rw [List.getD_eq_getElem _ _ hready]
        exact List.drop_eq_getElem_cons hready
      by_cases hw : (s₁.morphemes.getD s₁.index mdefault).part_of_speech.head? =
          some "空白"
      · simp only [runAux, step_of_has_next_true_ws hh hw]
        apply ih
        · exact ⟨(StreamWF_drop_succ hwf₁).1, (StreamWF_drop_succ hwf₁).2⟩
        · refine ⟨?_, hb₁.2.1, hb₁.2.2⟩
          intro m' hm'
          apply hb₁.1
          rw [hdrop]
          exact List.mem_cons_of_mem _ hm'
      · simp only [runAux, step_of_has_next_true_emit hh hw]
        have hmmem : s₁.morphemes.getD s₁.index mdefault ∈
            s₁.morphemes.drop s₁.index := by
          rw [hdrop]
          exact List.mem_cons_self _ _
        have hmbound := hwf₁.2 _ hmmem
        have hpair : ∀ m' ∈ s₁.morphemes.drop (s₁.index + 1),
            MorphemeLE (s₁.morphemes.getD s₁.index mdefault) m' := by
          have hp := hwf₁.1
          rw [hdrop] at hp
          exact (List.pairwise_cons.mp hp).1
        have hrec := ih
          { s₁ with
            index := s₁.index + 1
            token_position := (s₁.token_position + 1) % USIZE_MOD }
          (s₁.offset + (s₁.morphemes.getD s₁.index mdefault).begin)
          (s₁.offset + (s₁.morphemes.getD s₁.index mdefault).endPos + 1)
          ⟨(StreamWF_drop_succ hwf₁).1, (StreamWF_drop_succ hwf₁).2⟩
          (by
            refine ⟨?_, ?_, ?_⟩
            · intro m' hm'
              have hp := hpair m' hm'
              obtain ⟨hp1, hp2⟩ := hp
              constructor
              · simp only []
                omega
              · simp only []
                omega
            · simp only []
              omega
            · simp only []
              omega)
        obtain ⟨hchain, hbound⟩ := hrec
        constructor
        · rw [List.chain'_cons']
          refine ⟨?_, hchain⟩
          intro y hy
          exact hbound y (List.mem_of_mem_head? hy)
        · intro u hu
          rcases List.mem_cons.mp hu with rfl | hu'
          · exact hb₁.1 _ hmmem
          · have h1 := hb₁.1 _ hmmem
            have h2 := hbound u hu'
            constructor
            · exact Nat.le_trans h1.1 h2.1
            · exact Nat.le_trans h1.2 h2.2

/-- The chunks pulled from the iterator during one `step`: none when
morphemes remain, otherwise the chunk `has_next` fetches (if any). -/
def stepFetched (_tok : List Nat → List Morpheme) (s : SudachiTokenStream) :
    List (List Nat) :=
  if s.index < s.morphemes.length then []
  else
    match s.chunks.next with
    | some (c, _) => [c]
    | none => []

/-- Reachability of stream states from `s₀` by iterating `step`, recording
every chunk pulled from the iterator along the way. -/
inductive StreamTrace (tok : List Nat → List Morpheme)
    (s₀ : SudachiTokenStream) : List (List Nat) → SudachiTokenStream → Prop
  | refl : StreamTrace tok s₀ [] s₀
  | next {cs : List (List Nat)} {s : SudachiTokenStream} :
      StreamTrace tok s₀ cs s →
      StreamTrace tok s₀ (cs ++ stepFetched tok s) (step tok s).2

/-- One `step` either pulls no chunk and keeps the offset bookkeeping, or
pulls exactly one chunk and rebases it. -/
theorem step_snd_cases (tok : List Nat → List Morpheme)
    (s : SudachiTokenStream) :
    (stepFetched tok s = [] ∧
      (step tok s).2.offset = s.offset ∧
      (step tok s).2.chunk_size = s.chunk_size ∧
      (step tok s).2.morphemes = s.morphemes) ∨
    (∃ c rest, s.chunks.next = some (c, rest) ∧ stepFetched tok s = [c] ∧
      (step tok s).2.offset = s.offset + s.chunk_size ∧
      (step tok s).2.chunk_size = c.length ∧
      (step tok s).2.morphemes = tok c) := by
  by_cases hr : s.index < s.morphemes.length
  · left
    have hh : has_next tok s = (true, s) := has_next_ready hr
    refine ⟨by simp [stepFetched, hr], ?_⟩
    by_cases hw : (s.morphemes.getD s.index mdefault).part_of_speech.head? =
        some "空白"
    · rw [step_of_has_next_true_ws hh hw]
      exact ⟨rfl, rfl, rfl⟩
    · rw [step_of_has_next_true_emit hh hw]
      exact ⟨rfl, rfl, rfl⟩
  · cases hc : s.chunks.next with
    | some p =>
      obtain ⟨c, rest⟩ := p
      right
      refine ⟨c, rest, rfl, by simp [stepFetched, hr, hc], ?_⟩
      have hh : has_next tok s = (!(tok c).isEmpty, fetchState tok s c rest) := by
        unfold has_next
        rw [if_neg hr, hc]
      cases hemp : (tok c).isEmpty with
      | true =>
        have hh' : has_next tok s = (false, fetchState tok s c rest) := by
          rw [hh, hemp]
          rfl
        rw [step_of_has_next_false hh']
        exact ⟨rfl, rfl, rfl⟩
      | false =>
        have hh' : has_next tok s = (true, fetchState tok s c rest) := by
          rw [hh, hemp]
          rfl
        by_cases hw : ((fetchState tok s c rest).morphemes.getD
            (fetchState tok s c rest).index mdefault).part_of_speech.head? =
            some "空白"
        · rw [step_of_has_next_true_ws hh' hw]
          exact ⟨rfl, rfl, rfl⟩
        · rw [step_of_has_next_true_emit hh' hw]
          exact ⟨rfl, rfl, rfl⟩
    | none =>
      left
      have hh : has_next tok s = (false, s) := by
        unfold has_next
        rw [if_neg hr, hc]
      rw [step_of_has_next_false hh]
      exact ⟨by simp [stepFetched, hr, hc], rfl, rfl, rfl⟩

/-- Trace invariant: the offset plus the current chunk's recorded size is
the total byte length of all chunks pulled so far, and the recorded chunk
size and morpheme list belong to the most recently pulled chunk. -/
theorem streamTrace_inv {tok : List Nat → List Morpheme}
    {text : List Nat} {maxs : Nat} {cs : List (List Nat)}
    {s : SudachiTokenStream}
    (h : StreamTrace tok (mkStream text maxs) cs s) :
    s.offset + s.chunk_size = (cs.map List.length).sum ∧
    ((cs = [] ∧ s.chunk_size = 0 ∧ s.morphemes = [] ∧ s.offset = 0) ∨
     (∃ cs₀ c, cs = cs₀ ++ [c] ∧ s.chunk_size = c.length ∧
        s.morphemes = tok c)) := by
  induction h with
  | refl =>
    exact ⟨rfl, Or.inl ⟨rfl, rfl, rfl, rfl⟩⟩
  | next htr ih =>
    rename_i cs' s'
    rcases step_snd_cases tok s' with ⟨hf, ho, hcs, hm⟩ |
      ⟨c, rest, hc, hf, ho, hcs, hm⟩
    · rw [hf, List.append_nil]
      refine ⟨by rw [ho, hcs]; exact ih.1, ?_⟩
      rcases ih.2 with ⟨e1, e2, e3, e4⟩ | ⟨cs₀, c, e1, e2, e3⟩
      · exact Or.inl ⟨e1, by rw [hcs]; exact e2, by rw [hm]; exact e3,
          by rw [ho]; exact e4⟩
      · exact Or.inr ⟨cs₀, c, e1, by rw [hcs]; exact e2, by rw [hm]; exact e3⟩
    · rw [hf]
      constructor
      · rw [ho, hcs, List.map_append, List.sum_append]
        have h1 := ih.1
        simp only [List.map_cons, List.map_nil, List.sum_cons, List.sum_nil]
        omega
      · exact Or.inr ⟨cs', c, rfl, hcs, hm⟩

/-- C3: (a) for a well-behaved analyzer the emitted token sequence has
monotonically non-decreasing `offset_from` and `offset_to`, across chunk
boundaries included; (b) at any reachable state about to emit, the token's
`offset_from` is the total byte length of all fully consumed prior chunks
(`cs.dropLast`, i.e. every pulled chunk except the current one) plus the
morpheme's chunk-relative begin, and `offset_to` is that sum plus the
morpheme's chunk-relative end plus one. -/
theorem c3_offset_formula_and_monotone (text : List Nat) (maxs : Nat)
    (tok : List Nat → List Morpheme) :
    (AnalyzerWF tok → ∀ fuel,
      List.Chain' tokenLE (runAux tok fuel (mkStream text maxs))) ∧
    (∀ (cs : List (List Nat)) (s : SudachiTokenStream),
      StreamTrace tok (mkStream text maxs) cs s →
      s.index < s.morphemes.length →
      ¬ (s.morphemes.getD s.index mdefault).part_of_speech.head? =
          some "空白" →
      (step tok s).1 = .emit
        { position := (s.token_position + 1) % USIZE_MOD
          offset_from := (cs.dropLast.map List.length).sum +
            (s.morphemes.getD s.index mdefault).begin
          offset_to := (cs.dropLast.map List.length).sum +
            (s.morphemes.getD s.index mdefault).endPos + 1
          text := (s.morphemes.getD s.index mdefault).surface }) := by
  constructor
  · intro hA fuel
    refine (runAux_mono tok hA fuel (mkStream text maxs) 0 0 ?_ ?_).1
    · exact ⟨List.Pairwise.nil, by simp [mkStream, TextChunkIterator.new]⟩
    · refine ⟨?_, by simp [mkStream], by simp [mkStream]⟩
      intro m hm
      simp [mkStream, TextChunkIterator.new] at hm
  · intro cs s htr hready hw
    have hinv := streamTrace_inv htr
    rcases hinv.2 with ⟨hcs0, hchunk, hmor, hoff⟩ | ⟨cs₀, c, hcseq, hchunk, hmor⟩
    · exfalso
      rw [hmor] at hready
      simp at hready
    · have hoffs : s.offset = (cs.dropLast.map List.length).sum := by
        have h1 := hinv.1
        rw [hcseq, List.map_append, List.sum_append] at h1
        rw [hcseq, List.dropLast_concat]
        simp only [List.map_cons, List.map_nil, List.sum_cons,
          List.sum_nil] at h1
        omega
      rw [step_of_has_next_true_emit (has_next_ready hready) hw, hoffs]

/-- A well-behaved two-morpheme analyzer used for witnesses. -/
def tokW : List Nat → List Morpheme :=
  fun _ => [⟨0, 0, "a", []⟩, ⟨0, 0, "b", []⟩]

/-- `tokW` satisfies the analyzer contract. -/
theorem tokW_wf : AnalyzerWF tokW := by
  intro c
  constructor
  · simp [tokW, MorphemeLE]
  · intro m hm
    simp only [tokW, List.mem_cons, List.not_mem_nil, or_false] at hm
    rcases hm with rfl | rfl <;> simp

/-- Witness: monotone offsets on a one-chunk run, and the offset formula at
the reachable state which is about to emit the second morpheme of the first
chunk (no prior chunk is fully consumed, so the base is 0). -/
theorem c3_offset_formula_and_monotone_witness :
    List.Chain' tokenLE (runAux tokW 5 (mkStream [97] 5)) ∧
    (step tokW (step tokW (mkStream [97] 5)).2).1 = .emit
      { position := 2, offset_from := 0, offset_to := 1, text := "b" } := by
  constructor
  · exact (c3_offset_formula_and_monotone [97] 5 tokW).1 tokW_wf 5
  · exact (c3_offset_formula_and_monotone [97] 5 tokW).2
      ([] ++ stepFetched tokW (mkStream [97] 5))
      (step tokW (mkStream [97] 5)).2
      (StreamTrace.next StreamTrace.refl)
      (by decide) (by decide)
